import Mathlib

/-!
Shallow embedding of the `envfile` Rust crate (`src/lib.rs`).

Bytes are modelled as `Nat` and byte buffers as `List Nat`.  A Rust
`String` is represented by its list of UTF-8 bytes, so the lexicographic
byte order of `List Nat` coincides with the `Ord` instance Rust's
`BTreeMap<String, String>` uses.  The `BTreeMap` itself is modelled as an
association list kept sorted in strictly ascending key order, with
`btreeInsert` the model of `BTreeMap::insert`.  File-system access is a
parameter: `new` takes a function `fs` giving, for each path, one of the
three outcomes of opening and reading a file (bytes, open failure, read
failure after a successful open), and `write` takes a disk writer `dw`
with the analogous create/write outcomes.
-/

namespace Envfile

/-- Byte value of a newline character. -/
def nlByte : Nat := 10

/-- Byte value of the equals sign. -/
def eqByte : Nat := 61

/-- Model of `slice::split` on the byte `\n` (`data.split(|&x| x == b'\n')`):
segments between newline bytes, the separators themselves dropped, empty
segments kept.  An empty buffer yields one empty segment, as in Rust. -/
def splitOnNl : List Nat → List (List Nat)
  | [] => [[]]
  | b :: rest =>
    let r := splitOnNl rest
    if b = nlByte then [] :: r
    else
      match r with
      | [] => [[b]]
      | s :: ss => (b :: s) :: ss

/-- Model of `Iterator::position`: index of the first element satisfying
the predicate. -/
def position (p : Nat → Bool) : List Nat → Option Nat
  | [] => none
  | b :: rest => if p b then some 0 else (position p rest).map (· + 1)

/-- Whether a continuation byte of a UTF-8 sequence is in range `0x80..=0xBF`. -/
def contByte (b : Nat) : Bool := 0x80 ≤ b && b ≤ 0xBF

/-- UTF-8 validity of a byte sequence, as checked by Rust's
`String::from_utf8` (RFC 3629: no overlong encodings, no surrogates,
nothing above U+10FFFF). -/
def validUtf8 : List Nat → Bool
  | [] => true
  | b :: rest =>
    if b ≤ 0x7F then validUtf8 rest
    else if 0xC2 ≤ b && b ≤ 0xDF then
      match rest with
      | c1 :: rest1 => contByte c1 && validUtf8 rest1
      | [] => false
    else if b = 0xE0 then
      match rest with
      | c1 :: c2 :: rest2 =>
        (0xA0 ≤ c1 && c1 ≤ 0xBF) && contByte c2 && validUtf8 rest2
      | _ => false
    else if (0xE1 ≤ b && b ≤ 0xEC) || b = 0xEE || b = 0xEF then
      match rest with
      | c1 :: c2 :: rest2 => contByte c1 && contByte c2 && validUtf8 rest2
      | _ => false
    else if b = 0xED then
      match rest with
      | c1 :: c2 :: rest2 =>
        (0x80 ≤ c1 && c1 ≤ 0x9F) && contByte c2 && validUtf8 rest2
      | _ => false
    else if b = 0xF0 then
      match rest with
      | c1 :: c2 :: c3 :: rest3 =>
        (0x90 ≤ c1 && c1 ≤ 0xBF) && contByte c2 && contByte c3 && validUtf8 rest3
      | _ => false
    else if 0xF1 ≤ b && b ≤ 0xF3 then
      match rest with
      | c1 :: c2 :: c3 :: rest3 =>
        contByte c1 && contByte c2 && contByte c3 && validUtf8 rest3
      | _ => false
    else if b = 0xF4 then
      match rest with
      | c1 :: c2 :: c3 :: rest3 =>
        (0x80 ≤ c1 && c1 ≤ 0x8F) && contByte c2 && contByte c3 && validUtf8 rest3
      | _ => false
    else false

/-- Model of `String::from_utf8(bytes).ok()`: the bytes themselves on
success (a Rust `String` is represented by its UTF-8 bytes), `none` on
invalid UTF-8. -/
def from_utf8 (bs : List Nat) : Option (List Nat) :=
  if validUtf8 bs then some bs else none

/-- One step of the parsing closure in `EnvFile::new`: for a segment,
find the first `=`; if present and both the bytes before it and the bytes
after it decode as UTF-8, yield the (key, value) pair, otherwise nothing. -/
def parseLine (entry : List Nat) : Option (List Nat × List Nat) :=
  (position (fun x => x == eqByte) entry).bind fun pos =>
    (from_utf8 (entry.take pos)).bind fun x =>
      (from_utf8 (entry.drop (pos + 1))).map fun y => (x, y)

/-- Strict lexicographic order on byte strings: the order on Rust
`String` keys used by `BTreeMap<String, String>`. -/
def bytesLt : List Nat → List Nat → Bool
  | [], [] => false
  | [], _ :: _ => true
  | _ :: _, [] => false
  | a :: as, b :: bs => if a < b then true else if b < a then false else bytesLt as bs

/-- The model of `BTreeMap<String, String>`: an association list sorted
by strictly ascending key. -/
abbrev Store := List (List Nat × List Nat)

/-- Model of `BTreeMap::insert`: place the entry at its sorted position,
replacing any existing entry with the same key. -/
def btreeInsert (k v : List Nat) : Store → Store
  | [] => [(k, v)]
  | (k2, v2) :: rest =>
    if bytesLt k k2 then (k, v) :: (k2, v2) :: rest
    else if k = k2 then (k, v) :: rest
    else (k2, v2) :: btreeInsert k v rest

/-- Model of `BTreeMap::get`. -/
def btreeGet (k : List Nat) : Store → Option (List Nat)
  | [] => none
  | (k2, v) :: rest => if k = k2 then some v else btreeGet k rest

/-- The representation invariant of the `BTreeMap` model: entries in
strictly ascending key order. -/
def SortedStore (st : Store) : Prop :=
  List.Pairwise (fun a b => bytesLt a.1 b.1 = true) st

/-- The flat-mapped parse stream of `EnvFile::new`: every newline-split
segment run through `parseLine`, failures dropped. -/
def entriesOf (data : List Nat) : List (List Nat × List Nat) :=
  (splitOnNl data).filterMap parseLine

/-- The whole parse of `EnvFile::new`: insert each parsed entry, in
top-to-bottom order, into an initially empty map. -/
def parse (data : List Nat) : Store :=
  (entriesOf data).foldl (fun st e => btreeInsert e.1 e.2 st) []

/-- ASCII bytes of a string literal (used only for error-message text). -/
def strB (s : String) : List Nat := s.data.map Char.toNat

/-- A lowercase hexadecimal digit byte. -/
def hexDigit (n : Nat) : Nat := if n < 10 then 48 + n else 87 + n

/-- The `\u` escape that `char::escape_debug` emits for a non-printable
character, here for code points below 256: backslash, `u`, an opening
brace, the lowercase hex digits, a closing brace. -/
def escU (b : Nat) : List Nat :=
  [92, 117, 123] ++
    (if b < 16 then [hexDigit b] else [hexDigit (b / 16), hexDigit (b % 16)]) ++
    [125]

/-- `char::escape_debug` on an ASCII character — the per-character
escaping the `{:?}` Debug formatting of a path applies: named escapes for
NUL, tab, newline, carriage return, both quotes and backslash; printable
ASCII kept verbatim; remaining control characters become `\u` escapes.
Bytes at or above 128 are kept as they are, so the rendering is exact
only for ASCII paths, and theorems about the message text restrict
attention to those. -/
def escapeDebugByte (b : Nat) : List Nat :=
  if b = 0 then [92, 48]
  else if b = 9 then [92, 116]
  else if b = 10 then [92, 110]
  else if b = 13 then [92, 114]
  else if b = 34 then [92, 34]
  else if b = 39 then [92, 39]
  else if b = 92 then [92, 92]
  else if 32 ≤ b ∧ b ≤ 126 then [b]
  else if b ≤ 127 then escU b
  else [b]

/-- The Debug rendering `{:?}` of a path: the escaped bytes between
double quotes. -/
def pathDebug (path : List Nat) : List Nat :=
  34 :: (path.map escapeDebugByte).flatten ++ [34]

/-- The message built by the crate's `open` helper:
`format!("unable to open file at {:?}: {}", path, why)`. -/
def openErrMsg (path cause : List Nat) : List Nat :=
  strB "unable to open file at " ++ pathDebug path ++ strB ": " ++ cause

/-- The message built by the crate's `create` helper:
`format!("unable to create file at {:?}: {}", path, why)`. -/
def createErrMsg (path cause : List Nat) : List Nat :=
  strB "unable to create file at " ++ pathDebug path ++ strB ": " ++ cause

/-- Outcome of asking the external file system for a file's contents:
either `File::open` succeeds and `read_to_end` returns the bytes, or
`File::open` itself fails, or the open succeeds and the subsequent
`read_to_end` fails (as when the path names a directory). -/
inductive FsOutcome where
  | content (data : List Nat)
  | openFail (cause : List Nat)
  | readFail (cause : List Nat)
deriving DecidableEq, Repr

/-- Outcome of handing a buffer to the external disk writer: either
`File::create` and `write_all` succeed, or `File::create` itself fails,
or the create succeeds and the subsequent `write_all` fails. -/
inductive DwOutcome where
  | success
  | createFail (cause : List Nat)
  | writeAllFail (cause : List Nat)
deriving DecidableEq, Repr

/-- Model of the crate's `read` helper,
`open(path).and_then(|mut file| ... file.read_to_end(&mut buffer) ...)`:
only an `open` failure is wrapped in the path-bearing message; a
`read_to_end` failure propagates its cause unchanged. -/
def readFile (fs : List Nat → FsOutcome) (path : List Nat) :
    Except (List Nat) (List Nat) :=
  match fs path with
  | .content data => .ok data
  | .openFail why => .error (openErrMsg path why)
  | .readFail why => .error why

/-- Model of the crate's file-level `write` helper,
`create(path).and_then(|mut file| file.write_all(contents.as_ref()))`:
only a `create` failure is wrapped in the path-bearing message; a
`write_all` failure propagates its cause unchanged. -/
def writeFile (dw : List Nat → List Nat → DwOutcome)
    (path contents : List Nat) : Except (List Nat) Unit :=
  match dw path contents with
  | .success => .ok ()
  | .createFail why => .error (createErrMsg path why)
  | .writeAllFail why => .error why

/-- Model of `EnvFile`: the stored path and the parsed map. -/
structure EnvFile where
  path : List Nat
  store : Store
deriving DecidableEq, Repr

/-- Model of `EnvFile::new`: read the file, parse it, and build the value;
an I/O failure on the read propagates. -/
def EnvFile.new (fs : List Nat → FsOutcome) (path : List Nat) :
    Except (List Nat) EnvFile :=
  match readFile fs path with
  | .error e => .error e
  | .ok data => .ok { path := path, store := parse data }

/-- Model of `EnvFile::update`: insert or overwrite a key. -/
def EnvFile.update (e : EnvFile) (key value : List Nat) : EnvFile :=
  { e with store := btreeInsert key value e.store }

/-- Model of `EnvFile::get`. -/
def EnvFile.get (e : EnvFile) (key : List Nat) : Option (List Nat) :=
  btreeGet key e.store

/-- The buffer `EnvFile::write` builds: every entry, in map order, as
`KEY=VALUE\n`. -/
def serializeStore (store : Store) : List Nat :=
  store.foldl (fun buf e => buf ++ e.1 ++ eqByte :: e.2 ++ [nlByte]) []

/-- Model of `EnvFile::write`: the Rust method takes `&mut self` but only
reads it, so the embedding returns the result of handing the serialized
buffer to the disk writer together with the (unchanged) state. -/
def EnvFile.write (dw : List Nat → List Nat → DwOutcome)
    (e : EnvFile) : Except (List Nat) Unit × EnvFile :=
  (writeFile dw e.path (serializeStore e.store), e)

/-- Bytes of a sequence of `KEY=VALUE\n` lines. -/
def linesBytes (lines : List (List Nat × List Nat)) : List Nat :=
  (lines.map fun e => e.1 ++ eqByte :: e.2 ++ [nlByte]).flatten

/-- A sequence of `update` calls applied in order. -/
def applyUpdates (ups : List (List Nat × List Nat)) (e : EnvFile) : EnvFile :=
  ups.foldl (fun acc kv => acc.update kv.1 kv.2) e

/-! ### Splitting and line-parsing lemmas -/

theorem splitOnNl_nil : splitOnNl [] = [[]] := rfl

theorem splitOnNl_ne_nil (data : List Nat) : splitOnNl data ≠ [] := by
  induction data with
  | nil => simp [splitOnNl]
  | cons b rest ih =>
    simp only [splitOnNl]
    split
    · simp
    · cases h : splitOnNl rest with
      | nil => simp
      | cons s ss => simp

theorem splitOnNl_cons_sep (rest : List Nat) :
    splitOnNl (nlByte :: rest) = [] :: splitOnNl rest := by
  simp [splitOnNl]

theorem splitOnNl_cons_ne (b : Nat) (rest : List Nat) (hb : b ≠ nlByte) :
    splitOnNl (b :: rest) =
      (b :: (splitOnNl rest).headI) :: (splitOnNl rest).tail := by
  simp only [splitOnNl, if_neg hb]
  cases h : splitOnNl rest with
  | nil => exact absurd h (splitOnNl_ne_nil rest)
  | cons s ss => simp [List.headI]

theorem splitOnNl_append (a rest : List Nat) (ha : ∀ b ∈ a, b ≠ nlByte) :
    splitOnNl (a ++ nlByte :: rest) = a :: splitOnNl rest := by
  induction a with
  | nil => simpa using splitOnNl_cons_sep rest
  | cons x xs ih =>
    have hx : x ≠ nlByte := ha x (List.mem_cons_self x xs)
    have ih2 := ih (fun b hb => ha b (List.mem_cons_of_mem x hb))
    rw [List.cons_append, splitOnNl_cons_ne x _ hx, ih2]
    simp [List.headI]

theorem position_none (q : Nat → Bool) (l : List Nat) (h : ∀ b ∈ l, q b = false) :
    position q l = none := by
  induction l with
  | nil => rfl
  | cons b rest ih =>
    simp only [position, h b (List.mem_cons_self b rest), if_false, Bool.false_eq_true]
    rw [ih (fun b hb => h b (List.mem_cons_of_mem _ hb))]
    rfl

theorem position_append (q : Nat → Bool) (pre : List Nat) (x : Nat) (post : List Nat)
    (hpre : ∀ b ∈ pre, q b = false) (hx : q x = true) :
    position q (pre ++ x :: post) = some pre.length := by
  induction pre with
  | nil => simp [position, hx]
  | cons b rest ih =>
    have hb : q b = false := hpre b (List.mem_cons_self b rest)
    simp only [List.cons_append, position, hb, Bool.false_eq_true, if_false]
    simp [ih (fun b hb => hpre b (List.mem_cons_of_mem _ hb))]

theorem parseLine_eq (pre post : List Nat) (hpre : ∀ b ∈ pre, b ≠ eqByte)
    (hk : validUtf8 pre = true) (hv : validUtf8 post = true) :
    parseLine (pre ++ eqByte :: post) = some (pre, post) := by
  have hpos : position (fun x => x == eqByte) (pre ++ eqByte :: post) = some pre.length := by
    apply position_append
    · intro b hb
      simpa using hpre b hb
    · simp
  have htake : (pre ++ eqByte :: post).take pre.length = pre := List.take_left pre _
  have hdrop : (pre ++ eqByte :: post).drop (pre.length + 1) = post := by
    rw [← List.drop_drop, List.drop_left]
    simp
  simp [parseLine, hpos, htake, hdrop, from_utf8, hk, hv]

theorem parseLine_no_eq (entry : List Nat) (h : ∀ b ∈ entry, b ≠ eqByte) :
    parseLine entry = none := by
  have : position (fun x => x == eqByte) entry = none := by
    apply position_none
    intro b hb
    simpa using h b hb
  simp [parseLine, this]

theorem parseLine_nil : parseLine [] = none := rfl

theorem parseLine_invalid (pre post : List Nat) (hpre : ∀ b ∈ pre, b ≠ eqByte)
    (h : validUtf8 pre = false ∨ validUtf8 post = false) :
    parseLine (pre ++ eqByte :: post) = none := by
  have hpos : position (fun x => x == eqByte) (pre ++ eqByte :: post) = some pre.length := by
    apply position_append
    · intro b hb
      simpa using hpre b hb
    · simp
  have htake : (pre ++ eqByte :: post).take pre.length = pre := List.take_left pre _
  have hdrop : (pre ++ eqByte :: post).drop (pre.length + 1) = post := by
    rw [← List.drop_drop, List.drop_left]
    simp
  rcases h with h | h <;> simp [parseLine, hpos, htake, hdrop, from_utf8, h]

/-! ### Order lemmas for the key comparison -/

theorem bytesLt_irrefl (a : List Nat) : bytesLt a a = false := by
  induction a with
  | nil => rfl
  | cons x xs ih => simp [bytesLt, ih]

theorem bytesLt_asymm (a b : List Nat) (h : bytesLt a b = true) :
    bytesLt b a = false := by
  induction a generalizing b with
  | nil =>
    cases b with
    | nil => simp [bytesLt] at h
    | cons y ys => simp [bytesLt]
  | cons x xs ih =>
    cases b with
    | nil => simp [bytesLt] at h
    | cons y ys =>
      simp only [bytesLt] at h ⊢
      rcases Nat.lt_trichotomy x y with hlt | heq | hgt
      · simp [hlt, Nat.not_lt_of_lt hlt, Nat.ne_of_lt hlt]
      · subst heq
        simp only [Nat.lt_irrefl, if_false] at h ⊢
        exact ih ys h
      · simp [hgt, Nat.not_lt_of_lt hgt] at h

theorem bytesLt_trans (a b c : List Nat) (hab : bytesLt a b = true)
    (hbc : bytesLt b c = true) : bytesLt a c = true := by
  induction a generalizing b c with
  | nil =>
    cases b with
    | nil => simp [bytesLt] at hab
    | cons y ys =>
      cases c with
      | nil => simp [bytesLt] at hbc
      | cons z zs => simp [bytesLt]
  | cons x xs ih =>
    cases b with
    | nil => simp [bytesLt] at hab
    | cons y ys =>
      cases c with
      | nil => simp [bytesLt] at hbc
      | cons z zs =>
        simp only [bytesLt] at hab hbc ⊢
        rcases Nat.lt_trichotomy x y with hxy | hxy | hxy
        · rcases Nat.lt_trichotomy y z with hyz | hyz | hyz
          · simp [Nat.lt_trans hxy hyz]
          · subst hyz; simp [hxy]
          · simp [hyz, Nat.not_lt_of_lt hyz] at hbc
        · subst hxy
          rcases Nat.lt_trichotomy x z with hyz | hyz | hyz
          · simp [hyz]
          · subst hyz
            simp only [Nat.lt_irrefl, if_false] at hab hbc ⊢
            exact ih ys zs hab hbc
          · simp [hyz, Nat.not_lt_of_lt hyz] at hbc
        · simp [hxy, Nat.not_lt_of_lt hxy] at hab

theorem bytesLt_total_ne (a b : List Nat) (hab : bytesLt a b = false)
    (hba : bytesLt b a = false) : a = b := by
  induction a generalizing b with
  | nil =>
    cases b with
    | nil => rfl
    | cons y ys => simp [bytesLt] at hab
  | cons x xs ih =>
    cases b with
    | nil => simp [bytesLt] at hba
    | cons y ys =>
      simp only [bytesLt] at hab hba
      rcases Nat.lt_trichotomy x y with hxy | hxy | hxy
      · simp [hxy] at hab
      · subst hxy
        simp only [Nat.lt_irrefl, if_false] at hab hba
        rw [ih ys hab hba]
      · simp [hxy] at hba

/-! ### Map lemmas for the sorted association list -/

theorem btreeGet_insert_self (k v : List Nat) (st : Store) :
    btreeGet k (btreeInsert k v st) = some v := by
  induction st with
  | nil => simp [btreeInsert, btreeGet]
  | cons e rest ih =>
    obtain ⟨k2, v2⟩ := e
    simp only [btreeInsert]
    by_cases h1 : bytesLt k k2
    · simp [h1, btreeGet]
    · by_cases h2 : k = k2
      · subst h2
        simp [h1, btreeGet, bytesLt_irrefl]
      · simp [h1, h2, btreeGet, ih]

theorem btreeGet_insert_ne (k v k2 : List Nat) (st : Store) (hne : k2 ≠ k) :
    btreeGet k2 (btreeInsert k v st) = btreeGet k2 st := by
  induction st with
  | nil => simp [btreeInsert, btreeGet, hne]
  | cons e rest ih =>
    obtain ⟨k3, v3⟩ := e
    simp only [btreeInsert]
    by_cases h1 : bytesLt k k3
    · simp [h1, btreeGet, hne]
    · by_cases h2 : k = k3
      · subst h2
        simp [h1, btreeGet, hne]
      · by_cases h3 : k2 = k3
        · simp [h1, h2, btreeGet, h3]
        · simp [h1, h2, btreeGet, h3, ih]

theorem btreeGet_none_of_lt_all (k : List Nat) (st : Store)
    (h : ∀ e ∈ st, bytesLt k e.1 = true) : btreeGet k st = none := by
  induction st with
  | nil => rfl
  | cons e rest ih =>
    obtain ⟨k2, v2⟩ := e
    have hne : k ≠ k2 := by
      intro hcontra
      subst hcontra
      exact absurd (h (k, v2) (List.mem_cons_self _ _)) (by simp [bytesLt_irrefl])
    simp only [btreeGet, if_neg hne]
    exact ih (fun e he => h e (List.mem_cons_of_mem _ he))

theorem mem_btreeInsert (k v : List Nat) (st : Store) (e : List Nat × List Nat)
    (he : e ∈ btreeInsert k v st) : e = (k, v) ∨ e ∈ st := by
  induction st with
  | nil =>
    simp only [btreeInsert, List.mem_singleton] at he
    exact Or.inl he
  | cons e2 rest ih =>
    obtain ⟨k2, v2⟩ := e2
    simp only [btreeInsert] at he
    by_cases h1 : bytesLt k k2
    · rw [if_pos h1] at he
      rcases List.mem_cons.mp he with he | he
      · exact Or.inl he
      · exact Or.inr he
    · by_cases h2 : k = k2
      · rw [if_neg (by simp [h1]), if_pos h2] at he
        rcases List.mem_cons.mp he with he | he
        · exact Or.inl he
        · exact Or.inr (List.mem_cons_of_mem _ he)
      · rw [if_neg (by simp [h1]), if_neg h2] at he
        rcases List.mem_cons.mp he with he | he
        · exact Or.inr (he ▸ List.mem_cons_self _ _)
        · rcases ih he with h | h
          · exact Or.inl h
          · exact Or.inr (List.mem_cons_of_mem _ h)

theorem btreeInsert_length_mem (k v : List Nat) (st : Store)
    (hs : SortedStore st) (hmem : btreeGet k st ≠ none) :
    (btreeInsert k v st).length = st.length := by
  induction st with
  | nil => simp [btreeGet] at hmem
  | cons e rest ih =>
    obtain ⟨k2, v2⟩ := e
    rw [SortedStore, List.pairwise_cons] at hs
    by_cases h2 : k = k2
    · subst h2
      simp [btreeInsert, bytesLt_irrefl]
    · by_cases h1 : bytesLt k k2
      · exfalso
        apply hmem
        simp only [btreeGet, if_neg h2]
        apply btreeGet_none_of_lt_all
        intro e he
        exact bytesLt_trans _ _ _ h1 (hs.1 e he)
      · have hrest : btreeGet k rest ≠ none := by
          intro hcontra
          exact hmem (by simp [btreeGet, if_neg h2, hcontra])
        simp [btreeInsert, h1, h2, ih hs.2 hrest]

theorem btreeInsert_length_notmem (k v : List Nat) (st : Store)
    (hmem : btreeGet k st = none) :
    (btreeInsert k v st).length = st.length + 1 := by
  induction st with
  | nil => simp [btreeInsert]
  | cons e rest ih =>
    obtain ⟨k2, v2⟩ := e
    simp only [btreeGet] at hmem
    by_cases h2 : k = k2
    · simp [h2] at hmem
    · rw [if_neg h2] at hmem
      by_cases h1 : bytesLt k k2
      · simp [btreeInsert, h1]
      · simp [btreeInsert, h1, h2, ih hmem]

theorem btreeInsert_append (k v : List Nat) (st : Store)
    (h : ∀ e ∈ st, bytesLt e.1 k = true) :
    btreeInsert k v st = st ++ [(k, v)] := by
  induction st with
  | nil => rfl
  | cons e rest ih =>
    obtain ⟨k2, v2⟩ := e
    have hk2 : bytesLt k2 k = true := h (k2, v2) (List.mem_cons_self _ _)
    have h1 : bytesLt k k2 = false := bytesLt_asymm _ _ hk2
    have h2 : k ≠ k2 := by
      intro hcontra
      subst hcontra
      exact absurd hk2 (by simp [bytesLt_irrefl])
    simp only [btreeInsert, h1, Bool.false_eq_true, if_false, if_neg h2, List.cons_append]
    rw [ih (fun e he => h e (List.mem_cons_of_mem _ he))]

theorem btreeInsert_sorted (k v : List Nat) (st : Store) (hs : SortedStore st) :
    SortedStore (btreeInsert k v st) := by
  induction st with
  | nil => simp [btreeInsert, SortedStore]
  | cons e rest ih =>
    obtain ⟨k2, v2⟩ := e
    rw [SortedStore, List.pairwise_cons] at hs
    by_cases h1 : bytesLt k k2
    · rw [btreeInsert, if_pos h1, SortedStore, List.pairwise_cons]
      refine ⟨?_, hs.2.cons hs.1⟩
      intro e2 he2
      rcases List.mem_cons.mp he2 with he2 | he2
      · subst he2; exact h1
      · exact bytesLt_trans _ _ _ h1 (hs.1 e2 he2)
    · by_cases h2 : k = k2
      · subst h2
        rw [btreeInsert, if_neg (by simp [h1]), if_pos rfl, SortedStore,
          List.pairwise_cons]
        exact ⟨hs.1, hs.2⟩
      · have hk2k : bytesLt k2 k = true := by
          cases hlt : bytesLt k2 k with
          | true => rfl
          | false =>
            exact absurd (bytesLt_total_ne k k2 (Bool.eq_false_iff.mpr h1) hlt) h2
        rw [btreeInsert, if_neg (by simp [h1]), if_neg h2, SortedStore,
          List.pairwise_cons]
        constructor
        · intro e2 he2
          rcases mem_btreeInsert k v rest e2 he2 with he2 | he2
          · rw [he2]; exact hk2k
          · exact hs.1 e2 he2
        · exact ih hs.2

/-! ### Folding the parsed entries into the map -/

theorem foldl_btreeInsert_append (l : List (List Nat × List Nat)) (st : Store)
    (h : ∀ a ∈ st, ∀ b ∈ l, bytesLt a.1 b.1 = true)
    (hp : List.Pairwise (fun a b => bytesLt a.1 b.1 = true) l) :
    l.foldl (fun s e => btreeInsert e.1 e.2 s) st = st ++ l := by
  induction l generalizing st with
  | nil => simp
  | cons e rest ih =>
    rw [List.pairwise_cons] at hp
    have hins : btreeInsert e.1 e.2 st = st ++ [e] := by
      rw [btreeInsert_append]
      intro a ha
      exact h a ha e (List.mem_cons_self _ _)
    rw [List.foldl_cons, hins, ih]
    · simp
    · intro a ha b hb
      rcases List.mem_append.mp ha with ha | ha
      · exact h a ha b (List.mem_cons_of_mem _ hb)
      · rw [List.mem_singleton.mp ha]
        exact hp.1 b hb
    · exact hp.2

theorem foldl_btreeInsert_sorted (l : List (List Nat × List Nat)) (st : Store)
    (hs : SortedStore st) :
    SortedStore (l.foldl (fun s e => btreeInsert e.1 e.2 s) st) := by
  induction l generalizing st with
  | nil => exact hs
  | cons e rest ih => exact ih _ (btreeInsert_sorted e.1 e.2 st hs)

theorem parse_sorted (data : List Nat) : SortedStore (parse data) :=
  foldl_btreeInsert_sorted _ [] (by simp [SortedStore])

theorem lastOpt_cons {α : Type} (a : α) (l : List α) :
    (a :: l).getLast? = match l.getLast? with
      | some x => some x
      | none => some a := by
  induction l with
  | nil => rfl
  | cons b bs _ =>
    have h1 : (a :: b :: bs).getLast? = (b :: bs).getLast? := by
      rw [List.getLast?_cons_cons]
    rw [h1]
    cases hbs : (b :: bs).getLast? with
    | some x => rfl
    | none => simp at hbs

theorem btreeGet_foldl (k : List Nat) (l : List (List Nat × List Nat)) (st : Store) :
    btreeGet k (l.foldl (fun s e => btreeInsert e.1 e.2 s) st) =
      match (l.filter fun e => e.1 == k).getLast? with
      | some e => some e.2
      | none => btreeGet k st := by
  induction l generalizing st with
  | nil => rfl
  | cons e rest ih =>
    rw [List.foldl_cons, ih]
    by_cases hk : e.1 = k
    · have hfil : (e :: rest).filter (fun e => e.1 == k) =
          e :: rest.filter (fun e => e.1 == k) := by
        rw [List.filter_cons_of_pos]
        simp [hk]
      rw [hfil, lastOpt_cons]
      cases hlast : (rest.filter fun e => e.1 == k).getLast? with
      | some x => rfl
      | none =>
        subst hk
        simp [btreeGet_insert_self]
    · have hfil : (e :: rest).filter (fun e => e.1 == k) =
          rest.filter (fun e => e.1 == k) := by
        rw [List.filter_cons_of_neg]
        simp [hk]
      rw [hfil]
      cases hlast : (rest.filter fun e => e.1 == k).getLast? with
      | some x => rfl
      | none =>
        exact btreeGet_insert_ne e.1 e.2 k st (fun hcontra => hk hcontra.symm)

/-! ### Serialization lemmas -/

theorem serializeStore_aux (st : Store) (buf : List Nat) :
    st.foldl (fun buf e => buf ++ e.1 ++ eqByte :: e.2 ++ [nlByte]) buf =
      buf ++ linesBytes st := by
  induction st generalizing buf with
  | nil => simp [linesBytes]
  | cons e rest ih =>
    rw [List.foldl_cons, ih]
    simp [linesBytes]

theorem serializeStore_eq (st : Store) : serializeStore st = linesBytes st := by
  rw [serializeStore, serializeStore_aux]
  simp

theorem splitOnNl_linesBytes (lines : List (List Nat × List Nat))
    (h : ∀ e ∈ lines, (∀ b ∈ e.1, b ≠ nlByte) ∧ (∀ b ∈ e.2, b ≠ nlByte)) :
    splitOnNl (linesBytes lines) =
      (lines.map fun e => e.1 ++ eqByte :: e.2) ++ [[]] := by
  induction lines with
  | nil => rfl
  | cons e rest ih =>
    have he := h e (List.mem_cons_self _ _)
    have hdata : linesBytes (e :: rest) =
        (e.1 ++ eqByte :: e.2) ++ nlByte :: linesBytes rest := by
      simp [linesBytes]
    rw [hdata, splitOnNl_append]
    · rw [ih (fun e2 he2 => h e2 (List.mem_cons_of_mem _ he2))]
      simp
    · intro b hb
      rcases List.mem_append.mp hb with hb | hb
      · exact he.1 b hb
      · rcases List.mem_cons.mp hb with hb | hb
        · rw [hb]; decide
        · exact he.2 b hb

theorem entriesOf_linesBytes (lines : List (List Nat × List Nat))
    (h : ∀ e ∈ lines, (∀ b ∈ e.1, b ≠ nlByte ∧ b ≠ eqByte) ∧ (∀ b ∈ e.2, b ≠ nlByte) ∧
      validUtf8 e.1 = true ∧ validUtf8 e.2 = true) :
    entriesOf (linesBytes lines) = lines := by
  rw [entriesOf, splitOnNl_linesBytes]
  · rw [List.filterMap_append]
    have hnil : List.filterMap parseLine [[]] = [] := by
      simp [parseLine_nil]
    rw [hnil, List.append_nil]
    induction lines with
    | nil => rfl
    | cons e rest ih =>
      have he := h e (List.mem_cons_self _ _)
      rw [List.map_cons, List.filterMap_cons,
        parseLine_eq e.1 e.2 (fun b hb => (he.1 b hb).2) he.2.2.1 he.2.2.2]
      rw [ih (fun e2 he2 => h e2 (List.mem_cons_of_mem _ he2))]
  · intro e he
    exact ⟨fun b hb => ((h e he).1 b hb).1, (h e he).2.1⟩

theorem applyUpdates_path (ups : List (List Nat × List Nat)) (e : EnvFile) :
    (applyUpdates ups e).path = e.path := by
  induction ups generalizing e with
  | nil => rfl
  | cons kv rest ih => exact ih (e.update kv.1 kv.2)

theorem applyUpdates_store (ups : List (List Nat × List Nat)) (e : EnvFile) :
    (applyUpdates ups e).store =
      ups.foldl (fun s kv => btreeInsert kv.1 kv.2 s) e.store := by
  induction ups generalizing e with
  | nil => rfl
  | cons kv rest ih => exact ih (e.update kv.1 kv.2)

/-! ### The claims -/

/-- Claim C1: for file content made only of well-formed `KEY=VALUE` lines
terminated by newline, with keys in strictly ascending lexicographic
order (hence no duplicates) and no malformed or non-decodable lines,
`write()` immediately after `new()` builds a byte buffer identical to the
original content. -/
theorem c1_roundtrip (fs : List Nat → FsOutcome) (path : List Nat)
    (lines : List (List Nat × List Nat))
    (hwf : ∀ e ∈ lines, (∀ b ∈ e.1, b ≠ nlByte ∧ b ≠ eqByte) ∧
      (∀ b ∈ e.2, b ≠ nlByte) ∧ validUtf8 e.1 = true ∧ validUtf8 e.2 = true)
    (hsorted : List.Pairwise (fun a b => bytesLt a.1 b.1 = true) lines)
    (hread : fs path = .content (linesBytes lines)) :
    ∃ e, EnvFile.new fs path = .ok e ∧ serializeStore e.store = linesBytes lines := by
  have hparse : parse (linesBytes lines) = lines := by
    rw [parse, entriesOf_linesBytes lines hwf,
      foldl_btreeInsert_append _ _ (by simp) hsorted]
    simp
  refine ⟨⟨path, parse (linesBytes lines)⟩, ?_, ?_⟩
  · simp [EnvFile.new, readFile, hread]
  · rw [hparse, serializeStore_eq]

/-- Witness for C1 at the two-line file `A=1\nB=2\n`. -/
theorem c1_roundtrip_witness :
    ∃ e, EnvFile.new (fun _ => FsOutcome.content (linesBytes [([65], [49]), ([66], [50])])) [] =
      .ok e ∧
      serializeStore e.store = linesBytes [([65], [49]), ([66], [50])] :=
  c1_roundtrip _ [] [([65], [49]), ([66], [50])] (by decide) (by decide) rfl

/-- Claim C2: a newline-split segment with at least one `=` and decodable
slices yields exactly (bytes before the first `=`, bytes after it) as the
parsed entry, later `=` bytes staying inside the value. -/
theorem c2_first_equals (data pre post : List Nat)
    (hmem : (pre ++ eqByte :: post) ∈ splitOnNl data)
    (hpre : ∀ b ∈ pre, b ≠ eqByte)
    (hk : validUtf8 pre = true) (hv : validUtf8 post = true) :
    parseLine (pre ++ eqByte :: post) = some (pre, post) ∧
      (pre, post) ∈ entriesOf data := by
  have h := parseLine_eq pre post hpre hk hv
  exact ⟨h, List.mem_filterMap.mpr ⟨_, hmem, h⟩⟩

/-- Witness for C2 at the file `A=B=C\n`: key `A`, value `B=C`. -/
theorem c2_first_equals_witness :
    parseLine ([65] ++ eqByte :: [66, 61, 67]) = some ([65], [66, 61, 67]) ∧
      ([65], [66, 61, 67]) ∈ entriesOf [65, 61, 66, 61, 67, 10] :=
  c2_first_equals [65, 61, 66, 61, 67, 10] [65] [66, 61, 67]
    (by decide) (by decide) (by decide) (by decide)

/-- Claim C3: however the store was produced (parsing followed by any
sequence of updates), the write buffer serializes every entry exactly
once, in ascending key order, as `KEY=VALUE\n`; in particular updating
`B=2` then `A=1` on an empty store writes `A=1\nB=2\n`. -/
theorem c3_sorted_write (data : List Nat) (ups : List (List Nat × List Nat))
    (dw : List Nat → List Nat → DwOutcome) (path : List Nat) :
    SortedStore (applyUpdates ups ⟨path, parse data⟩).store ∧
    serializeStore (applyUpdates ups ⟨path, parse data⟩).store =
      ((applyUpdates ups ⟨path, parse data⟩).store.map
        fun e => e.1 ++ eqByte :: e.2 ++ [nlByte]).flatten ∧
    EnvFile.write dw (applyUpdates ups ⟨path, parse data⟩) =
      (writeFile dw (applyUpdates ups ⟨path, parse data⟩).path
        (serializeStore (applyUpdates ups ⟨path, parse data⟩).store),
        applyUpdates ups ⟨path, parse data⟩) ∧
    serializeStore (((EnvFile.mk [] []).update [66] [50]).update [65] [49]).store =
      [65, 61, 49, 10, 66, 61, 50, 10] := by
  refine ⟨?_, ?_, rfl, by decide⟩
  · rw [applyUpdates_store]
    exact foldl_btreeInsert_sorted ups _ (parse_sorted data)
  · rw [serializeStore_eq, linesBytes]

/-- Claim C4: reading succeeds as long as the file read does, and
segments with no `=`, or whose key or value slice is not valid UTF-8,
silently contribute no entry. -/
theorem c4_silent_skip (fs : List Nat → FsOutcome)
    (path data : List Nat) (hread : fs path = .content data) :
    EnvFile.new fs path = .ok ⟨path, parse data⟩ ∧
    ∀ seg ∈ splitOnNl data,
      ((∀ b ∈ seg, b ≠ eqByte) → parseLine seg = none) ∧
      (∀ pre post, seg = pre ++ eqByte :: post → (∀ b ∈ pre, b ≠ eqByte) →
        (validUtf8 pre = false ∨ validUtf8 post = false) → parseLine seg = none) := by
  refine ⟨by simp [EnvFile.new, readFile, hread], ?_⟩
  intro seg _
  refine ⟨fun h => parseLine_no_eq seg h, ?_⟩
  intro pre post hseg hpre hbad
  rw [hseg]
  exact parseLine_invalid pre post hpre hbad

/-- Witness for C4 at the file `justsometext\nA=\xFF\n`: construction
succeeds and both the equals-free segment and the non-UTF-8 segment parse
to nothing. -/
theorem c4_silent_skip_witness :
    EnvFile.new
        (fun _ => FsOutcome.content
          [106, 117, 115, 116, 115, 111, 109, 101, 116, 101, 120, 116, 10, 65, 61, 255, 10])
        [] =
      .ok ⟨[], parse
        [106, 117, 115, 116, 115, 111, 109, 101, 116, 101, 120, 116, 10, 65, 61, 255, 10]⟩ ∧
    parseLine [106, 117, 115, 116, 115, 111, 109, 101, 116, 101, 120, 116] = none ∧
    parseLine [65, 61, 255] = none := by
  have h := c4_silent_skip
    (fun _ => FsOutcome.content
      [106, 117, 115, 116, 115, 111, 109, 101, 116, 101, 120, 116, 10, 65, 61, 255, 10])
    []
    [106, 117, 115, 116, 115, 111, 109, 101, 116, 101, 120, 116, 10, 65, 61, 255, 10]
    rfl
  refine ⟨h.1, ?_, ?_⟩
  · exact (h.2 [106, 117, 115, 116, 115, 111, 109, 101, 116, 101, 120, 116]
      (by decide)).1 (by decide)
  · exact (h.2 [65, 61, 255] (by decide)).2 [65] [255] (by decide) (by decide)
      (Or.inr (by decide))

/-- Claim C5: the value stored for a key is the one from the last
well-formed line bearing that key, in top-to-bottom file order. -/
theorem c5_last_wins (data k : List Nat) :
    btreeGet k (parse data) =
      (((entriesOf data).filter fun e => e.1 == k).getLast?).map Prod.snd := by
  rw [parse, btreeGet_foldl]
  cases h : ((entriesOf data).filter fun e => e.1 == k).getLast? <;>
    simp [h, btreeGet]

/-- Claim C6: after `update(k, v)`, `get(k)` returns `v`; other keys are
untouched; the entry count stays the same when `k` was present and grows
by one when it was absent. -/
theorem c6_update_get (e : EnvFile) (k v : List Nat) (hs : SortedStore e.store) :
    (e.update k v).get k = some v ∧
    (∀ k2, k2 ≠ k → (e.update k v).get k2 = e.get k2) ∧
    (e.get k ≠ none → (e.update k v).store.length = e.store.length) ∧
    (e.get k = none → (e.update k v).store.length = e.store.length + 1) := by
  refine ⟨?_, ?_, ?_, ?_⟩
  · exact btreeGet_insert_self k v e.store
  · intro k2 hk2
    exact btreeGet_insert_ne k v k2 e.store hk2
  · intro hmem
    exact btreeInsert_length_mem k v e.store hs hmem
  · intro hmem
    exact btreeInsert_length_notmem k v e.store hmem

/-- Witness for C6: inserting a fresh key `B` into the singleton store
`{A ↦ 1}` yields `get B = 2` and entry count 2. -/
theorem c6_update_get_witness :
    ((EnvFile.mk [] [([65], [49])]).update [66] [50]).get [66] = some [50] ∧
    ((EnvFile.mk [] [([65], [49])]).update [66] [50]).store.length =
      (EnvFile.mk [] [([65], [49])]).store.length + 1 := by
  have h := c6_update_get (EnvFile.mk [] [([65], [49])]) [66] [50]
    (by unfold SortedStore; decide)
  exact ⟨h.1, h.2.2.2 (by decide)⟩

/-- Claim C7: splitting happens only at `\n`; a line ending in `\r\n`
keeps the `\r` as the final byte of its value. -/
theorem c7_crlf (k v rest : List Nat) (hk10 : ∀ b ∈ k, b ≠ nlByte)
    (hv10 : ∀ b ∈ v, b ≠ nlByte) (hkeq : ∀ b ∈ k, b ≠ eqByte)
    (hku : validUtf8 k = true) (hvu : validUtf8 (v ++ [13]) = true) :
    splitOnNl (k ++ eqByte :: v ++ 13 :: nlByte :: rest) =
      (k ++ eqByte :: v ++ [13]) :: splitOnNl rest ∧
    parseLine (k ++ eqByte :: v ++ [13]) = some (k, v ++ [13]) := by
  constructor
  · have hform : k ++ eqByte :: v ++ 13 :: nlByte :: rest =
        (k ++ eqByte :: (v ++ [13])) ++ nlByte :: rest := by
      simp
    rw [hform, splitOnNl_append]
    · simp
    · intro b hb
      rcases List.mem_append.mp hb with hb | hb
      · exact hk10 b hb
      · rcases List.mem_cons.mp hb with hb | hb
        · rw [hb]; decide
        · rcases List.mem_append.mp hb with hb | hb
          · exact hv10 b hb
          · rw [List.mem_singleton.mp hb]; decide
  · simpa using parseLine_eq k (v ++ [13]) hkeq hku hvu

/-- Witness for C7 at the file `A=B\r\n`: one segment `A=B\r`, parsed as
key `A`, value `B\r`. -/
theorem c7_crlf_witness :
    splitOnNl ([65] ++ eqByte :: [66] ++ 13 :: nlByte :: []) =
      ([65] ++ eqByte :: [66] ++ [13]) :: splitOnNl [] ∧
    parseLine ([65] ++ eqByte :: [66] ++ [13]) = some ([65], [66, 13]) :=
  c7_crlf [65] [66] [] (by decide) (by decide) (by decide) (by decide) (by decide)

/-- Helper: a printable ASCII byte other than the quotes and the
backslash is kept verbatim by the Debug escaping. -/
theorem escapeDebugByte_verbatim (b : Nat) (h32 : 32 ≤ b) (h126 : b ≤ 126)
    (hq : b ≠ 34) (hsq : b ≠ 39) (hbs : b ≠ 92) : escapeDebugByte b = [b] := by
  have h0 : b ≠ 0 := by omega
  have h9 : b ≠ 9 := by omega
  have h10 : b ≠ 10 := by omega
  have h13 : b ≠ 13 := by omega
  rw [escapeDebugByte, if_neg h0, if_neg h9, if_neg h10, if_neg h13, if_neg hq,
    if_neg hsq, if_neg hbs, if_pos ⟨h32, h126⟩]

/-- Helper: escaping a list of such bytes is the identity. -/
theorem mapEscape_verbatim (path : List Nat)
    (h : ∀ b ∈ path, 32 ≤ b ∧ b ≤ 126 ∧ b ≠ 34 ∧ b ≠ 39 ∧ b ≠ 92) :
    (path.map escapeDebugByte).flatten = path := by
  induction path with
  | nil => rfl
  | cons b rest ih =>
    have hb := h b (List.mem_cons_self _ _)
    rw [List.map_cons, List.flatten_cons,
      escapeDebugByte_verbatim b hb.1 hb.2.1 hb.2.2.1 hb.2.2.2.1 hb.2.2.2.2,
      ih (fun x hx => h x (List.mem_cons_of_mem _ hx))]
    rfl

/-- Helper: the Debug rendering of such a path is the path between
quotes. -/
theorem pathDebug_verbatim (path : List Nat)
    (h : ∀ b ∈ path, 32 ≤ b ∧ b ≤ 126 ∧ b ≠ 34 ∧ b ≠ 39 ∧ b ≠ 92) :
    pathDebug path = 34 :: path ++ [34] := by
  rw [pathDebug, mapEscape_verbatim path h]

/-- Counterexample to claim C8 as stated: C8 covers every path at which
the file cannot be opened **or read**, but at a path where `File::open`
succeeds and `read_to_end` then fails (as for a directory), `new`
returns the raw cause — here the single byte `x` — whose description
does not contain the path `/e` at all. -/
theorem c8_counterexample :
    EnvFile.new (fun _ => FsOutcome.readFail [120]) [47, 101] =
      .error [120] ∧
    ∀ pre suf : List Nat, ([120] : List Nat) ≠ pre ++ [47, 101] ++ suf := by
  refine ⟨rfl, ?_⟩
  intro pre suf h
  have hlen := congrArg List.length h
  simp at hlen
  omega

/-- Claim C8, amended: when `File::open` fails, `new` returns the
path-annotated error (for printable-ASCII paths without quotes or
backslashes, the raw path bytes appear verbatim inside the message) and
never a constructed store; when the open succeeds but the read fails,
`new` still returns an error and no store, but the message is the
underlying cause alone, without the path. -/
theorem c8_missing_file (fs : List Nat → FsOutcome) (path cause : List Nat) :
    (fs path = .openFail cause →
      EnvFile.new fs path = .error (openErrMsg path cause) ∧
      (∀ e : EnvFile, EnvFile.new fs path ≠ .ok e) ∧
      ((∀ b ∈ path, 32 ≤ b ∧ b ≤ 126 ∧ b ≠ 34 ∧ b ≠ 39 ∧ b ≠ 92) →
        ∃ pre suf, openErrMsg path cause = pre ++ path ++ suf)) ∧
    (fs path = .readFail cause →
      EnvFile.new fs path = .error cause ∧
      ∀ e : EnvFile, EnvFile.new fs path ≠ .ok e) := by
  constructor
  · intro hfail
    have hnew : EnvFile.new fs path = .error (openErrMsg path cause) := by
      simp [EnvFile.new, readFile, hfail]
    refine ⟨hnew, ?_, ?_⟩
    · intro e hcontra
      rw [hnew] at hcontra
      exact Except.noConfusion hcontra
    · intro hascii
      refine ⟨strB "unable to open file at " ++ [34], [34] ++ strB ": " ++ cause, ?_⟩
      rw [openErrMsg, pathDebug_verbatim path hascii]
      simp
  · intro hfail
    have hnew : EnvFile.new fs path = .error cause := by
      simp [EnvFile.new, readFile, hfail]
    refine ⟨hnew, ?_⟩
    intro e hcontra
    rw [hnew] at hcontra
    exact Except.noConfusion hcontra

/-- Witness for C8 at the ASCII path `/e`: an open failure yields the
path-bearing message with `/e` inside it, a read failure yields the bare
cause. -/
theorem c8_missing_file_witness :
    EnvFile.new (fun _ => FsOutcome.openFail [120]) [47, 101] =
      .error (openErrMsg [47, 101] [120]) ∧
    (∃ pre suf, openErrMsg [47, 101] [120] = pre ++ [47, 101] ++ suf) ∧
    EnvFile.new (fun _ => FsOutcome.readFail [121]) [47, 101] = .error [121] := by
  have h1 := c8_missing_file (fun _ => FsOutcome.openFail [120]) [47, 101] [120]
  have h2 := c8_missing_file (fun _ => FsOutcome.readFail [121]) [47, 101] [121]
  exact ⟨(h1.1 rfl).1, (h1.1 rfl).2.2 (by decide), (h2.2 rfl).1⟩

/-- Claim C9: `write` never changes the in-memory state: the store and
path after the call are the ones before it, for every disk writer,
succeeding or failing. -/
theorem c9_write_frame (dw : List Nat → List Nat → DwOutcome)
    (e : EnvFile) :
    (EnvFile.write dw e).2.store = e.store ∧
    (EnvFile.write dw e).2.path = e.path ∧
    (EnvFile.write dw e).2 = e :=
  ⟨rfl, rfl, rfl⟩

/-- Claim C10: a segment whose first byte is `=` is not skipped; it
parses to an entry with the empty key and the remaining bytes as value. -/
theorem c10_empty_key (v rest : List Nat) (hv10 : ∀ b ∈ v, b ≠ nlByte)
    (hvu : validUtf8 v = true) :
    parseLine (eqByte :: v) = some ([], v) ∧
    ([], v) ∈ entriesOf ((eqByte :: v) ++ nlByte :: rest) := by
  have hp : parseLine (eqByte :: v) = some ([], v) :=
    parseLine_eq [] v (by simp) rfl hvu
  refine ⟨hp, ?_⟩
  have hsplit : splitOnNl ((eqByte :: v) ++ nlByte :: rest) =
      (eqByte :: v) :: splitOnNl rest := by
    apply splitOnNl_append
    intro b hb
    rcases List.mem_cons.mp hb with hb | hb
    · rw [hb]; decide
    · exact hv10 b hb
  rw [entriesOf, hsplit]
  exact List.mem_filterMap.mpr ⟨eqByte :: v, List.mem_cons_self _ _, hp⟩

/-- Witness for C10 at the file `=VALUE\n`: the entry (empty key,
`VALUE`). -/
theorem c10_empty_key_witness :
    parseLine (eqByte :: [86, 65, 76, 85, 69]) = some ([], [86, 65, 76, 85, 69]) ∧
    ([], [86, 65, 76, 85, 69]) ∈
      entriesOf ((eqByte :: [86, 65, 76, 85, 69]) ++ nlByte :: []) :=
  c10_empty_key [86, 65, 76, 85, 69] [] (by decide) (by decide)

end Envfile
